import Mathlib

/-!
Verification of the Minecraft Server Manager (`src/main.py`) against its
natural-language specification.

Strings are embedded as `List Char` (named `Str` below); Python string
operations used by the program (`str.split`, `str.lower`, substring test
`in`, `str.startswith`, `re.findall(r'\d+', ...)`, `int(...)`) are given
executable Lean counterparts.  Each section names the Python function it
embeds.
-/

namespace MCSM

/-- Strings of the program, embedded as lists of characters. -/
abbrev Str := List Char

/-- Character list of a Lean string literal (used to write embedded constants). -/
def strOf (s : String) : Str := s.data

/-- Model of Python `str.lower` (the program only lowercases ASCII
directory names); `Char.toLower` lowercases exactly the ASCII range. -/
def lowerStr (s : Str) : Str := s.map Char.toLower

/-- Model of the Python substring test `pat in s`. -/
def containsSub (pat : Str) : Str → Bool
  | [] => pat.isEmpty
  | c :: t => pat.isPrefixOf (c :: t) || containsSub pat t

/-- Model of Python `s.split(sep)` (single-character separator, no maxsplit):
`''.split(sep) = ['']`, and every separator occurrence cuts. -/
def splitChar (sep : Char) : Str → List Str
  | [] => [[]]
  | c :: t =>
    if c = sep then [] :: splitChar sep t
    else (c :: (splitChar sep t).headD []) :: (splitChar sep t).tail

/-- `s` contains no occurrence of the character `sep`. -/
def NoChar (sep : Char) (s : Str) : Prop := sep ∉ s

instance (sep : Char) (s : Str) : Decidable (NoChar sep s) := by
  unfold NoChar
  infer_instance

/-- Numeric value of a digit string, as computed by Python `int(...)` on a
string of decimal digits. -/
def natOfDigits (s : Str) : Nat :=
  s.foldl (fun acc c => acc * 10 + (c.toNat - 48)) 0

/-- Helper for `digitRuns`: walks the string, `acc` holding the digits of the
current run in reverse. -/
def digitRunsGo : Str → Str → List Str
  | [], acc => if acc = [] then [] else [acc.reverse]
  | c :: t, acc =>
    if c.isDigit then digitRunsGo t (c :: acc)
    else if acc = [] then digitRunsGo t []
    else acc.reverse :: digitRunsGo t []

/-- Model of `re.findall(r'\d+', s)`: the maximal runs of decimal digits
of `s`, in order. -/
def digitRuns (s : Str) : List Str := digitRunsGo s []

/-- Last element of a nonempty list, with default (models Python `xs[-1]`). -/
def lastD (l : List Str) : Str := l.getLastD []

/-!
## `JavaFinder.get_java_details` — major-version derivation (main.py 264–271)

```python
major_version = 0
version_parts = re.findall(r'\d+', version_str)
if version_parts:
    if version_parts[0] == '1':
        major_version = int(version_parts[1]) if len(version_parts) > 1 else 8
    else:
        major_version = int(version_parts[0])
```
-/

/-- The major-version number `get_java_details` derives from the list of
numeric components of the probed version string. -/
def majorFromParts : List Str → Nat
  | [] => 0
  | p0 :: rest =>
    if p0 = strOf "1" then
      match rest with
      | [] => 8
      | p1 :: _ => natOfDigits p1
    else natOfDigits p0

/-- The major version `get_java_details` derives from a raw version string. -/
def major_version_of (version_str : Str) : Nat :=
  majorFromParts (digitRuns version_str)

/-!
## `MinecraftManager` directory naming (main.py 697–704, 794–804)

```python
def _get_server_dir_name(self, stype, mc_version, mod_version):
    if stype == ServerType.VANILLA:
        return mc_version
    mod_version_sanitized = mod_version.split('-')[-1] if mod_version and '-' in mod_version else mod_version
    return f"{mc_version}-{stype.name.lower()}-{mod_version_sanitized}"

def _infer_server_type(self, dir_name):
    name = dir_name.lower()
    if "-forge-" in name: return ServerType.FORGE
    if "-fabric-" in name: return ServerType.FABRIC
    if "-neoforge-" in name: return ServerType.NEOFORGE
    return ServerType.VANILLA

def _infer_mc_version(self, dir_name):
    return dir_name.split('-')[0]
```
-/

/-- The four server types of the manager. -/
inductive ServerType where
  | VANILLA
  | FORGE
  | FABRIC
  | NEOFORGE
deriving DecidableEq, Repr

/-- `stype.name.lower()` of the Python enum. -/
def ServerType.lowerName : ServerType → Str
  | .VANILLA => strOf "vanilla"
  | .FORGE => strOf "forge"
  | .FABRIC => strOf "fabric"
  | .NEOFORGE => strOf "neoforge"

/-- The sanitized mod version: `mod_version.split('-')[-1] if mod_version and
'-' in mod_version else mod_version` (with `None` passed through). -/
def sanitizedModVersion (mv : Option Str) : Option Str :=
  match mv with
  | none => none
  | some s => if s ≠ [] ∧ '-' ∈ s then some (lastD (splitChar '-' s)) else some s

/-- Python f-string rendering of an `Optional[str]`: `None` prints as `"None"`. -/
def pyShowOpt : Option Str → Str
  | none => strOf "None"
  | some s => s

/-- `MinecraftManager._get_server_dir_name`. -/
def get_server_dir_name (stype : ServerType) (mc_version : Str) (mod_version : Option Str) : Str :=
  if stype = ServerType.VANILLA then mc_version
  else
    mc_version ++ '-' :: stype.lowerName ++ '-' :: pyShowOpt (sanitizedModVersion mod_version)

/-- `MinecraftManager._infer_server_type` (`name = dir_name.lower()` is
computed once in the source; it is inlined here). -/
def infer_server_type (dir_name : Str) : ServerType :=
  if containsSub (strOf "-forge-") (lowerStr dir_name) then ServerType.FORGE
  else if containsSub (strOf "-fabric-") (lowerStr dir_name) then ServerType.FABRIC
  else if containsSub (strOf "-neoforge-") (lowerStr dir_name) then ServerType.NEOFORGE
  else ServerType.VANILLA

/-- `MinecraftManager._infer_mc_version`: `dir_name.split('-')[0]`. -/
def infer_mc_version (dir_name : Str) : Str :=
  (splitChar '-' dir_name).headD []

/-!
## Sorting

Python `sorted(xs, key=k, reverse=True)` is a stable sort placing larger keys
first.  It is embedded as a stable insertion sort parameterized by the strict
`<` on keys: an element is inserted before the first element whose key is not
greater than its own.
-/

/-- Insert `x` into `l` before the first `y` with `lt x y = false`
(descending insertion; stable for equal keys). -/
def insertDescBy (lt : α → α → Bool) (x : α) : List α → List α
  | [] => [x]
  | y :: t => if lt x y then y :: insertDescBy lt x t else x :: y :: t

/-- Stable descending sort by the strict comparison `lt`
(model of Python `sorted(..., reverse=True)`). -/
def sortDescBy (lt : α → α → Bool) : List α → List α
  | [] => []
  | x :: xs => insertDescBy lt x (sortDescBy lt xs)

/-- Python string `<`: lexicographic comparison by code point, a proper
nonempty extension being greater. -/
def strLt : Str → Str → Bool
  | [], [] => false
  | [], _ :: _ => true
  | _ :: _, [] => false
  | a :: s, b :: t => if a < b then true else if b < a then false else strLt s t

/-- Model of Python `s.split(sep, 1)`: at most one cut, at the first
occurrence of `sep`. -/
def splitOnce (sep : Char) (s : Str) : List Str :=
  if sep ∈ s then
    [s.takeWhile (· != sep), (s.dropWhile (· != sep)).tail]
  else [s]

/-!
## `ApiClients` — the four version-catalog adapters (main.py 55–216)

Each adapter performs one HTTP GET inside a `try` block.  The observable
input of one call is embedded as `HttpGet`: the transport either fails
(`requests.RequestException` from the `get` call itself), or returns a
status code and a body.  `raise_for_status()` raises for any status ≥ 400;
the raised error and any parse failure of the body (`response.json()`
raising `requests.JSONDecodeError`, a `RequestException` subclass, or
`ET.fromstring` raising `ET.ParseError`) are caught by the adapter's
`except` clause, which prints a diagnostic and returns `[]`.  A body that
parses is embedded as `some payload`, an unparseable one as `none`.

Each embedded adapter returns the version list paired with a `Bool`
recording whether the failure diagnostic was printed.
-/

/-- Outcome of one HTTP GET as seen inside an adapter. -/
inductive HttpGet (α : Type) where
  | transportError
  | response (status : Nat) (body : Option α)
deriving DecidableEq, Repr

/-- One entry of the Mojang version manifest. -/
structure MinecraftVersion where
  id : Str
  vtype : Str
  url : Str
deriving DecidableEq, Repr

/-- `ApiClients.get_minecraft_versions` (main.py 68–85): keeps manifest
entries matching `filter_type` (all of them when the filter is empty). -/
def get_minecraft_versions (filter_type : Str)
    (g : HttpGet (List MinecraftVersion)) : List MinecraftVersion × Bool :=
  match g with
  | .transportError => ([], true)
  | .response status body =>
    if 400 ≤ status then ([], true)
    else
      match body with
      | none => ([], true)
      | some vs =>
        (vs.filter (fun v => filter_type.isEmpty || v.vtype == filter_type), false)

/-- One Forge build: `full_version = <mc_version>-<forge_version>`. -/
structure ForgeVersion where
  full_version : Str
  mc_version : Str
  forge_version : Str
deriving DecidableEq, Repr

/-- The per-node body of the loop of `get_forge_versions` (main.py 122–131):
a `<version>` text node is kept iff it is present, nonempty and starts with
`<mc_version>-`; it is then split at the first `-`. -/
def forgeFromNode (mc_version : Str) (txt : Option Str) : Option ForgeVersion :=
  match txt with
  | none => none
  | some fv =>
    if fv ≠ [] ∧ (mc_version ++ ['-']).isPrefixOf fv then
      if (splitOnce '-' fv).length = 2 then
        some ⟨fv, (splitOnce '-' fv).headD [], (splitOnce '-' fv).getLastD []⟩
      else none
    else none

/-- `ApiClients.get_forge_versions` (main.py 113–135): filters the
maven-metadata version nodes and sorts by `forge_version`, descending raw
string order (`sorted(..., key=lambda v: v.forge_version, reverse=True)`). -/
def get_forge_versions (mc_version : Str)
    (g : HttpGet (List (Option Str))) : List ForgeVersion × Bool :=
  match g with
  | .transportError => ([], true)
  | .response status body =>
    if 400 ≤ status then ([], true)
    else
      match body with
      | none => ([], true)
      | some nodes =>
        (sortDescBy (fun a b => strLt a.forge_version b.forge_version)
          (nodes.filterMap (forgeFromNode mc_version)), false)

/-- One Fabric loader version. -/
structure FabricLoaderVersion where
  version : Str
  stable : Bool
deriving DecidableEq, Repr

/-- `ApiClients.get_fabric_loader_versions` (main.py 143–164): a 404 status
is answered with `[]` before `raise_for_status()` runs, with no diagnostic;
items without a `loader` object are skipped. -/
def get_fabric_loader_versions
    (g : HttpGet (List (Option FabricLoaderVersion))) : List FabricLoaderVersion × Bool :=
  match g with
  | .transportError => ([], true)
  | .response status body =>
    if status = 404 then ([], false)
    else if 400 ≤ status then ([], true)
    else
      match body with
      | none => ([], true)
      | some items => (items.filterMap id, false)

/-- One NeoForge build: the version string does not embed the base game
version, which is derived as `1.<first dot component>`. -/
structure NeoForgeVersion where
  full_version : Str
  mc_version : Str
  neoforge_version : Str
deriving DecidableEq, Repr

/-- The per-node body of the loop of `get_neoforge_versions` (main.py
205–212): a node is kept iff present, nonempty and starting with
`<mc_series>.`; its base version is `"1." + full_version.split('.')[0]`. -/
def neoforgeFromNode (mc_series : Str) (txt : Option Str) : Option NeoForgeVersion :=
  match txt with
  | none => none
  | some fv =>
    if fv ≠ [] ∧ (mc_series ++ ['.']).isPrefixOf fv then
      some ⟨fv, '1' :: '.' :: (splitChar '.' fv).headD [], fv⟩
    else none

/-- `ApiClients.get_neoforge_versions` (main.py 191–216): a base version
with fewer than two dot components returns `[]` before any fetch; otherwise
nodes matching the derived series `<mc_parts[1]>.` are kept and sorted by
`full_version`, descending raw string order. -/
def get_neoforge_versions (mc_version : Str)
    (g : HttpGet (List (Option Str))) : List NeoForgeVersion × Bool :=
  if (splitChar '.' mc_version).length < 2 then ([], false)
  else
    match g with
    | .transportError => ([], true)
    | .response status body =>
      if 400 ≤ status then ([], true)
      else
        match body with
        | none => ([], true)
        | some nodes =>
          (sortDescBy (fun a b => strLt a.full_version b.full_version)
            (nodes.filterMap
              (neoforgeFromNode ((splitChar '.' mc_version).tail.headD []))), false)

/-- The failure modes of one fetch named by the specification: a transport
error, an HTTP error status (`raise_for_status` raises for every status
≥ 400, hence for not-found), or a payload that does not parse. -/
def FetchFailed {α : Type} : HttpGet α → Prop
  | .transportError => True
  | .response status body => 400 ≤ status ∨ body = none

/-- The Forge maven-metadata node texts that are present, nonempty and
start with `<mc_version>-`: per the specification these are exactly the
entries the adapter must return. -/
def forgeMatchingTexts (mc_version : Str) (nodes : List (Option Str)) : List Str :=
  nodes.filterMap (fun t => t.bind (fun fv =>
    if fv ≠ [] ∧ (mc_version ++ ['-']).isPrefixOf fv then some fv else none))

/-- The NeoForge maven-metadata node texts that are present, nonempty and
start with `<p1>.` where `p1` is the second dot component of the requested
base version: the derived numeric series of the specification. -/
def neoMatchingTexts (p1 : Str) (nodes : List (Option Str)) : List Str :=
  nodes.filterMap (fun t => t.bind (fun fv =>
    if fv ≠ [] ∧ (p1 ++ ['.']).isPrefixOf fv then some fv else none))

/-!
## `JavaFinder.find_java_installations` (main.py 302–344)

`get_java_details` probes one candidate executable; a successful probe
yields a `JavaInstallation` whose `java_home` is the parent-of-parent of the
symlink-resolved executable and whose `path_depth` is the component count of
that resolved executable (hence `path_depth = |java_home parts| + 2`: equal
install roots force equal depths).  The engine is embedded as a fold over
the probe results, in the (unspecified) iteration order of the candidate
set:

```python
for java_exe_candidate in candidate_exes:
    details = JavaFinder.get_java_details(java_exe_candidate)
    if details:
        if details.java_home in processed_homes: continue
        processed_homes.add(details.java_home)
        if details.display_alias not in found_installations or \
           details.path_depth < found_installations[details.display_alias].path_depth:
            found_installations[details.display_alias] = details
return sorted(list(found_installations.values()), key=lambda x: x.major_version, reverse=True)
```
-/

/-- A probed Java installation (the dataclass `JavaInstallation`). -/
structure JavaInstallation where
  java_home : Str
  java_type : Str
  version : Str
  vendor : Str
  major_version : Nat
  display_alias : Str
  path_depth : Nat
deriving DecidableEq, Repr

/-- One iteration of the candidate loop: skip an already-processed install
root, then keep the shallowest installation per `display_alias` (the Python
dict keyed by alias, updated in place, preserving insertion order). -/
def findStep (st : List Str × List JavaInstallation) (d : JavaInstallation) :
    List Str × List JavaInstallation :=
  if d.java_home ∈ st.1 then st
  else
    let homes := d.java_home :: st.1
    match st.2.find? (fun e => e.display_alias == d.display_alias) with
    | none => (homes, st.2 ++ [d])
    | some e =>
      if d.path_depth < e.path_depth then
        (homes, st.2.map (fun x => if x.display_alias == d.display_alias then d else x))
      else (homes, st.2)

/-- `JavaFinder.find_java_installations`, as a function of the successful
probe results in candidate-set iteration order: dedup by resolved install
root, collapse by alias keeping the shallowest, sort by `major_version`
descending. -/
def find_java_installations (candidates : List JavaInstallation) : List JavaInstallation :=
  sortDescBy (fun a b => a.major_version < b.major_version)
    (candidates.foldl findStep ([], [])).2

/-!
## `MinecraftManager._select_java_for_version` (main.py 657–695)

The operation reads `java-path.json` in the server directory, prompts only
when the saved path is absent or invalid, and writes the file only after an
explicit `y` answer.  Its environment is embedded explicitly:

* `saved`: `none` when the file does not exist; `some none` when reading or
  JSON-decoding it fails; `some (some p)` when its `javaPath` value is `p`
  (`config.get("javaPath", "")` turns a missing key into `""`).
* `validExec p`: whether `<p>/bin/java` is a regular executable file.
* `insts`: the discovery result awaited from `java_future`.
* `choice`: the menu selection (`none` = the operator quit).
* `saveAnswer`: the `y`/`n`/`q` answer to the save prompt (`none` = `q`).
-/

/-- Observable outcome of one `_select_java_for_version` call. -/
structure SelectJavaOutcome where
  result : Option Str
  raised : Bool
  wrote : Option Str
  prompted : Bool
deriving DecidableEq, Repr

/-- The interactive tail of `_select_java_for_version` (main.py 674–695),
reached when no valid saved configuration short-circuits the call. -/
def selectJavaMenu (insts : List JavaInstallation) (choice : Option (Fin insts.length))
    (saveAnswer : Option Bool) : SelectJavaOutcome :=
  if insts = [] then ⟨none, true, none, false⟩
  else
    match choice with
    | none => ⟨none, false, none, true⟩
    | some i =>
      match saveAnswer with
      | some true =>
        ⟨some ((insts.get i).java_home ++ strOf "/bin/java"), false,
          some (insts.get i).java_home, true⟩
      | _ => ⟨some ((insts.get i).java_home ++ strOf "/bin/java"), false, none, true⟩

/-- `MinecraftManager._select_java_for_version`. -/
def select_java_for_version (saved : Option (Option Str)) (validExec : Str → Bool)
    (insts : List JavaInstallation) (choice : Option (Fin insts.length))
    (saveAnswer : Option Bool) : SelectJavaOutcome :=
  match saved with
  | some (some p) =>
    if validExec p then ⟨some (p ++ strOf "/bin/java"), false, none, false⟩
    else selectJavaMenu insts choice saveAnswer
  | _ => selectJavaMenu insts choice saveAnswer

/-!
## `MinecraftManager._start_server` — the shutdown protocol (main.py 866–893)

The foreground control flow after the spawn is:

```python
while server_process.poll() is None:
    try:
        user_input = input()
        if user_input.strip():
            server_process.stdin.write(user_input + '\n'); server_process.stdin.flush()
    except (EOFError, KeyboardInterrupt):
        try:
            server_process.stdin.write('stop\n'); server_process.stdin.flush()
        except (IOError, BrokenPipeError):
            pass
        break
server_process.wait(timeout=60)
...
except (subprocess.SubprocessError, FileNotFoundError) as e:
    ...
    if server_process and server_process.poll() is None:
        server_process.kill()
```

One run of the loop is embedded as a finite event trace: each iteration
either observes that the process has exited (`poll()` not `None`), or
receives one operator action from `input()` — a typed line, or the
end-of-input/interrupt signal (`EOFError`/`KeyboardInterrupt`), in which
case the single `stop` write may hit a broken pipe.
-/

/-- Model of Python `str.strip()` (used only for its emptiness test). -/
def stripStr (s : Str) : Str :=
  ((s.dropWhile Char.isWhitespace).reverse.dropWhile Char.isWhitespace).reverse

/-- One observed iteration of the input-forwarding loop. -/
inductive LoopEvent where
  | procExited
  | opLine (s : Str)
  | opInterrupt (pipeBroken : Bool)
deriving DecidableEq, Repr

/-- How the input-forwarding loop ends (`pending` = the finite trace ran out
with the process still running and no interrupt observed). -/
inductive LoopExit where
  | procExit
  | interruptBreak
  | pending
deriving DecidableEq, Repr

/-- The observable effect of one loop run: the lines successfully written to
the process input, the number of attempts to write the shutdown command,
and how the loop ended. -/
structure LoopRun where
  writes : List Str
  stopAttempts : Nat
  exit : LoopExit
deriving DecidableEq, Repr

/-- The input-forwarding loop of `_start_server` over an event trace. -/
def inputLoop : List LoopEvent → LoopRun
  | [] => ⟨[], 0, .pending⟩
  | .procExited :: _ => ⟨[], 0, .procExit⟩
  | .opLine s :: rest =>
    if stripStr s ≠ [] then
      ⟨(s ++ strOf "\n") :: (inputLoop rest).writes, (inputLoop rest).stopAttempts,
        (inputLoop rest).exit⟩
    else inputLoop rest
  | .opInterrupt broken :: _ =>
    ⟨if broken then [] else [strOf "stop\n"], 1, .interruptBreak⟩

/-- The Python exception classes reaching the outer handler of
`_start_server`. -/
inductive PyExcClass where
  | TimeoutExpired
  | SubprocessError
  | FileNotFoundError
  | BrokenPipeError
  | OSError
  | KeyboardInterrupt
deriving DecidableEq, Repr

/-- `issubclass` on the classes above: `subprocess.TimeoutExpired` subclasses
`subprocess.SubprocessError`; `BrokenPipeError` subclasses `OSError`. -/
def pyIsSubclass (e target : PyExcClass) : Bool :=
  e == target ||
  match e, target with
  | .TimeoutExpired, .SubprocessError => true
  | .BrokenPipeError, .OSError => true
  | _, _ => false

/-- The outer exception dispatch of `_start_server` (main.py 886–893):
`some killed?` when the exception is caught (`killed?` true iff `kill()` ran
because the process still had no exit status), `none` when it propagates. -/
def startServerHandler (e : PyExcClass) (procStillRunning : Bool) : Option Bool :=
  if pyIsSubclass e .SubprocessError || pyIsSubclass e .FileNotFoundError then
    some procStillRunning
  else if pyIsSubclass e .KeyboardInterrupt then
    some procStillRunning
  else none

/-- Outcome of `server_process.wait(timeout=60)` after the loop. -/
inductive WaitResult where
  | exited (code : Int)
  | timedOut
deriving DecidableEq, Repr

/-- Final fate of the supervised process in one `_start_server` run. -/
inductive FinalState where
  | terminatedNaturally (code : Int)
  | killed
  | caughtNoKill
  | escaped
deriving DecidableEq, Repr

/-- The post-loop phase of `_start_server`: `wait(timeout=60)` either
returns (natural termination within the grace period) or raises
`subprocess.TimeoutExpired` with the process still running, which the outer
dispatch resolves. -/
def waitPhase (w : WaitResult) : FinalState :=
  match w with
  | .exited c => .terminatedNaturally c
  | .timedOut =>
    match startServerHandler .TimeoutExpired true with
    | some true => .killed
    | some false => .caughtNoKill
    | none => .escaped

/-- The process is no longer running at the end of the run. -/
def FinalState.terminated : FinalState → Prop
  | .terminatedNaturally _ => True
  | .killed => True
  | .caughtNoKill => False
  | .escaped => False

instance (f : FinalState) : Decidable f.terminated := by
  unfold FinalState.terminated
  cases f <;> infer_instance

/-!
## `MinecraftManager._start_server` — the output reader thread (main.py 855–863)

```python
def read_output(proc):
    for line in iter(proc.stdout.readline, ''):
        sys.stdout.write(line); sys.stdout.flush()
output_thread = threading.Thread(target=read_output, args=(server_process,))
output_thread.daemon = True
output_thread.start()
```

The reader and the foreground flow are embedded as a two-actor interleaved
transition system.  The process appends output lines while its stream is
open; the reader forwards one buffered line per step and stops at
end-of-stream; the foreground flow may finish at any time (nothing in
`_start_server` joins the thread), and because `output_thread.daemon` is
`True` the interpreter shutdown that follows (`sys.exit(0)`, main.py 493)
stops the reader abruptly at that same moment.
-/

/-- State of the output-forwarding system. -/
structure SupSt where
  produced : List Str
  buffered : List Str
  forwarded : List Str
  streamClosed : Bool
  mainAlive : Bool
  readerAlive : Bool
deriving DecidableEq, Repr

/-- Interleaved steps of the process, the reader thread and the foreground
flow. -/
inductive SupStep : SupSt → SupSt → Prop where
  | emit (s : SupSt) (l : Str) (hOpen : s.streamClosed = false) :
      SupStep s { s with produced := s.produced ++ [l], buffered := s.buffered ++ [l] }
  | close (s : SupSt) (hOpen : s.streamClosed = false) :
      SupStep s { s with streamClosed := true }
  | forward (s : SupSt) (l : Str) (rest : List Str)
      (hAlive : s.readerAlive = true) (hBuf : s.buffered = l :: rest) :
      SupStep s { s with buffered := rest, forwarded := s.forwarded ++ [l] }
  | readerEof (s : SupSt) (hAlive : s.readerAlive = true)
      (hBuf : s.buffered = []) (hClosed : s.streamClosed = true) :
      SupStep s { s with readerAlive := false }
  | mainExit (s : SupSt) (hAlive : s.mainAlive = true) :
      SupStep s { s with mainAlive := false, readerAlive := false }

/-- Initial state: process just spawned, both actors running. -/
def supInit : SupSt := ⟨[], [], [], false, true, true⟩

/-- Reachability of the output-forwarding system. -/
def SupReaches : SupSt → SupSt → Prop := Relation.ReflTransGen SupStep

/-- A state from which no step is possible (the run is over). -/
def SupTerminal (s : SupSt) : Prop := ∀ t, ¬ SupStep s t

/-- The claim of the specification, as a proposition about the system: every
completed run forwards every produced line. -/
def NoOutputDropped : Prop :=
  ∀ s, SupReaches supInit s → SupTerminal s → s.forwarded = s.produced

/-!
## Shared lemmas: characters and lists
-/

theorem toLower_eq_hyphen {c : Char} (h : c.toLower = '-') : c = '-' := by
  unfold Char.toLower at h
  simp only [] at h
  by_cases hr : c.toNat ≥ 65 ∧ c.toNat ≤ 90
  · rw [if_pos hr] at h
    exfalso
    have hv : (c.toNat + 32).isValidChar := by
      left
      have := hr.2
      omega
    have ht : (Char.ofNat (c.toNat + 32)).toNat = c.toNat + 32 := by
      rw [Char.ofNat, dif_pos hv]
      rfl
    rw [h] at ht
    have h45 : ('-').toNat = 45 := by decide
    rw [h45] at ht
    have := hr.1
    omega
  · rw [if_neg hr] at h
    exact h

theorem noChar_lowerStr {s : Str} (h : '-' ∉ s) : '-' ∉ lowerStr s := by
  intro hmem
  unfold lowerStr at hmem
  obtain ⟨c, hc, hlc⟩ := List.mem_map.mp hmem
  exact h (toLower_eq_hyphen hlc ▸ hc)

theorem headD_mem {α : Type} {l : List α} (h : l ≠ []) (d : α) : l.headD d ∈ l := by
  cases l with
  | nil => exact absurd rfl h
  | cons a t => simp

theorem getLastD_mem {α : Type} {l : List α} (h : l ≠ []) (d : α) : l.getLastD d ∈ l := by
  induction l with
  | nil => exact absurd rfl h
  | cons a t ih =>
    cases t with
    | nil => simp
    | cons b u =>
      rw [List.getLastD_cons]
      exact List.mem_cons_of_mem a (ih (by simp))

/-!
## Shared lemmas: `splitChar`
-/

theorem splitChar_ne_nil (sep : Char) (s : Str) : splitChar sep s ≠ [] := by
  cases s with
  | nil => simp [splitChar]
  | cons c t =>
    simp only [splitChar]
    by_cases h : c = sep <;> simp [h]

theorem splitChar_no_sep (sep : Char) (s : Str) : ∀ p ∈ splitChar sep s, sep ∉ p := by
  induction s with
  | nil =>
    intro p hp
    simp [splitChar] at hp
    simp [hp]
  | cons c t ih =>
    intro p hp
    simp only [splitChar] at hp
    by_cases hc : c = sep
    · rw [if_pos hc] at hp
      rcases List.mem_cons.mp hp with h | h
      · simp [h]
      · exact ih p h
    · rw [if_neg hc] at hp
      rcases List.mem_cons.mp hp with h | h
      · subst h
        intro hmem
        rcases List.mem_cons.mp hmem with h | h
        · exact hc h.symm
        · have hne := splitChar_ne_nil sep t
          exact ih _ (headD_mem hne []) h
      · exact ih p (List.mem_of_mem_tail h)

theorem splitChar_of_not_mem {sep : Char} {s : Str} (h : sep ∉ s) :
    splitChar sep s = [s] := by
  induction s with
  | nil => simp [splitChar]
  | cons c t ih =>
    have hc : c ≠ sep := fun he => h (he ▸ List.mem_cons_self c t)
    have ht : sep ∉ t := fun hm => h (List.mem_cons_of_mem c hm)
    simp only [splitChar, if_neg hc, ih ht]
    simp

theorem splitChar_append {sep : Char} {A : Str} (R : Str) (hA : sep ∉ A) :
    splitChar sep (A ++ sep :: R) = A :: splitChar sep R := by
  induction A with
  | nil => simp [splitChar]
  | cons c t ih =>
    have hc : c ≠ sep := fun he => hA (he ▸ List.mem_cons_self c t)
    have ht : sep ∉ t := fun hm => hA (List.mem_cons_of_mem c hm)
    have h2 := ih ht
    rw [List.cons_append]
    simp only [splitChar, if_neg hc]
    rw [h2]
    simp

theorem seq_split {sep : Char} {A R X S : Str} (hA : sep ∉ A) (hX : sep ∉ X)
    (h : A ++ sep :: R = X ++ sep :: S) : A = X ∧ R = S := by
  have h1 : splitChar sep (A ++ sep :: R) = splitChar sep (X ++ sep :: S) := by rw [h]
  rw [splitChar_append R hA, splitChar_append S hX] at h1
  have hAX : A = X := (List.cons.injEq _ _ _ _ ▸ h1).1
  subst hAX
  refine ⟨rfl, ?_⟩
  have := List.append_cancel_left h
  exact (List.cons.injEq _ _ _ _ ▸ this).2

/-!
## Shared lemmas: substring containment
-/

theorem containsSub_iff (pat s : Str) : containsSub pat s = true ↔ pat <:+: s := by
  induction s with
  | nil =>
    simp only [containsSub, List.isEmpty_iff, List.infix_nil]
  | cons c t ih =>
    simp only [containsSub, Bool.or_eq_true, List.isPrefixOf_iff_prefix, ih,
      List.infix_cons_iff]

theorem count_of_noChar {s : Str} (h : '-' ∉ s) : s.count '-' = 0 :=
  List.count_eq_zero.mpr h

theorem sepPattern_infix_iff {W A C B : Str} (hW : '-' ∉ W) (hA : '-' ∉ A)
    (hC : '-' ∉ C) (hB : '-' ∉ B) :
    (('-' :: W ++ ['-']) <:+: (A ++ '-' :: C ++ '-' :: B)) ↔ W = C := by
  constructor
  · intro hinf
    obtain ⟨X, Y, hXY⟩ := hinf
    have hcnt : (X ++ ('-' :: W ++ ['-']) ++ Y).count '-' =
        (A ++ '-' :: C ++ '-' :: B).count '-' := by rw [hXY]
    simp only [List.count_append, List.count_cons] at hcnt
    rw [count_of_noChar hW, count_of_noChar hA, count_of_noChar hC,
      count_of_noChar hB] at hcnt
    simp at hcnt
    have hXn : '-' ∉ X := List.count_eq_zero.mp (by omega)
    have hYn : '-' ∉ Y := List.count_eq_zero.mp (by omega)
    have hXY2 : X ++ '-' :: (W ++ '-' :: Y) = A ++ '-' :: (C ++ '-' :: B) := by
      simpa using hXY
    obtain ⟨-, h2⟩ := seq_split hXn hA hXY2
    exact (seq_split hW hC h2).1
  · intro h
    subst h
    exact ⟨A, B, by simp⟩

theorem containsSub_sep_name {W A C B : Str} (hW : '-' ∉ W) (hA : '-' ∉ A)
    (hC : '-' ∉ C) (hB : '-' ∉ B) :
    containsSub ('-' :: W ++ ['-']) (A ++ '-' :: C ++ '-' :: B) = decide (W = C) := by
  by_cases h : W = C
  · subst h
    rw [(containsSub_iff _ _).mpr ((sepPattern_infix_iff hW hA hC hB).mpr rfl)]
    simp
  · rw [decide_eq_false h, Bool.eq_false_iff]
    intro hc
    exact h ((sepPattern_infix_iff hW hA hC hB).mp ((containsSub_iff _ _).mp hc))

theorem containsSub_sep_of_noChar {W s : Str} (hs : '-' ∉ s) :
    containsSub ('-' :: W ++ ['-']) s = false := by
  rw [Bool.eq_false_iff]
  intro hc
  have hinf := (containsSub_iff _ _).mp hc
  have := hinf.sublist.count_le '-'
  rw [count_of_noChar hs] at this
  simp [List.count_append, List.count_cons] at this

theorem noChar_sanitized (mv : Option Str) :
    '-' ∉ pyShowOpt (sanitizedModVersion mv) := by
  cases mv with
  | none =>
    show '-' ∉ strOf "None"
    decide
  | some s =>
    simp only [sanitizedModVersion]
    by_cases h : s ≠ [] ∧ '-' ∈ s
    · rw [if_pos h]
      exact splitChar_no_sep '-' s _ (getLastD_mem (splitChar_ne_nil '-' s) [])
    · rw [if_neg h]
      push_neg at h
      by_cases hs : s = []
      · simp [pyShowOpt, hs]
      · exact h hs

theorem forge_pat : strOf "-forge-" = '-' :: strOf "forge" ++ ['-'] := by decide

theorem fabric_pat : strOf "-fabric-" = '-' :: strOf "fabric" ++ ['-'] := by decide

theorem neoforge_pat : strOf "-neoforge-" = '-' :: strOf "neoforge" ++ ['-'] := by decide

theorem lowerStr_name (mc ch S : Str) :
    lowerStr (mc ++ '-' :: ch ++ '-' :: S) =
      lowerStr mc ++ '-' :: lowerStr ch ++ '-' :: lowerStr S := by
  have hl : Char.toLower '-' = '-' := by decide
  simp [lowerStr, hl]

/-!
## Shared lemmas: the descending stable sort
-/

theorem mem_insertDescBy {α : Type} (lt : α → α → Bool) (x z : α) (l : List α) :
    z ∈ insertDescBy lt x l ↔ z = x ∨ z ∈ l := by
  induction l with
  | nil => simp [insertDescBy]
  | cons y t ih =>
    simp only [insertDescBy]
    by_cases h : lt x y
    · rw [if_pos h]
      simp only [List.mem_cons, ih]
      tauto
    · rw [if_neg h]
      simp only [List.mem_cons]

theorem perm_insertDescBy {α : Type} (lt : α → α → Bool) (x : α) (l : List α) :
    (insertDescBy lt x l).Perm (x :: l) := by
  induction l with
  | nil => simp [insertDescBy]
  | cons y t ih =>
    simp only [insertDescBy]
    by_cases h : lt x y
    · rw [if_pos h]
      exact (ih.cons y).trans (List.Perm.swap x y t)
    · rw [if_neg h]

theorem perm_sortDescBy {α : Type} (lt : α → α → Bool) (l : List α) :
    (sortDescBy lt l).Perm l := by
  induction l with
  | nil => simp [sortDescBy]
  | cons x t ih =>
    simp only [sortDescBy]
    exact (perm_insertDescBy lt x _).trans (ih.cons x)

theorem mem_sortDescBy {α : Type} (lt : α → α → Bool) (l : List α) (z : α) :
    z ∈ sortDescBy lt l ↔ z ∈ l :=
  (perm_sortDescBy lt l).mem_iff

theorem pairwise_insertDescBy {α : Type} (lt : α → α → Bool)
    (hasymm : ∀ a b, lt a b = true → lt b a = false)
    (hgtrans : ∀ a b c, lt a b = false → lt b c = false → lt a c = false)
    (x : α) (l : List α) (hl : l.Pairwise fun a b => lt a b = false) :
    (insertDescBy lt x l).Pairwise fun a b => lt a b = false := by
  induction l with
  | nil => simp [insertDescBy]
  | cons y t ih =>
    rcases List.pairwise_cons.mp hl with ⟨hy, ht⟩
    simp only [insertDescBy]
    by_cases h : lt x y
    · rw [if_pos h]
      refine List.pairwise_cons.mpr ⟨?_, ih ht⟩
      intro z hz
      rcases (mem_insertDescBy lt x z t).mp hz with rfl | hzt
      · exact hasymm _ _ h
      · exact hy z hzt
    · rw [if_neg h]
      refine List.pairwise_cons.mpr ⟨?_, hl⟩
      intro z hz
      rcases List.mem_cons.mp hz with rfl | hzt
      · simpa using h
      · exact hgtrans x y z (by simpa using h) (hy z hzt)

theorem pairwise_sortDescBy {α : Type} (lt : α → α → Bool)
    (hasymm : ∀ a b, lt a b = true → lt b a = false)
    (hgtrans : ∀ a b c, lt a b = false → lt b c = false → lt a c = false)
    (l : List α) :
    (sortDescBy lt l).Pairwise fun a b => lt a b = false := by
  induction l with
  | nil => simp [sortDescBy]
  | cons x t ih =>
    simp only [sortDescBy]
    exact pairwise_insertDescBy lt hasymm hgtrans x _ ih

/-!
## Shared lemmas: the Python string order `strLt`
-/

theorem strLt_asymm : ∀ (a b : Str), strLt a b = true → strLt b a = false := by
  intro a
  induction a with
  | nil =>
    intro b h
    cases b with
    | nil => simp [strLt] at h
    | cons y t => simp [strLt]
  | cons x s ih =>
    intro b h
    cases b with
    | nil => simp [strLt] at h
    | cons y t =>
      simp only [strLt] at h ⊢
      by_cases hxy : x < y
      · rw [if_neg (lt_asymm hxy), if_pos hxy]
      · rw [if_neg hxy] at h
        by_cases hyx : y < x
        · rw [if_pos hyx] at h
          exact absurd h (by simp)
        · rw [if_neg hyx] at h
          rw [if_neg hyx, if_neg hxy]
          exact ih t h

theorem strLt_ge_trans :
    ∀ (a b c : Str), strLt a b = false → strLt b c = false → strLt a c = false := by
  intro a
  induction a with
  | nil =>
    intro b c hab hbc
    cases b with
    | nil =>
      cases c with
      | nil => simp [strLt]
      | cons z u => simp [strLt] at hbc
    | cons y t => simp [strLt] at hab
  | cons x s ih =>
    intro b c hab hbc
    cases b with
    | nil =>
      cases c with
      | nil => simp [strLt]
      | cons z u => simp [strLt] at hbc
    | cons y t =>
      cases c with
      | nil => simp [strLt]
      | cons z u =>
        simp only [strLt] at hab hbc ⊢
        by_cases hxy : x < y
        · rw [if_pos hxy] at hab
          exact absurd hab (by simp)
        · rw [if_neg hxy] at hab
          by_cases hyz : y < z
          · rw [if_pos hyz] at hbc
            exact absurd hbc (by simp)
          · rw [if_neg hyz] at hbc
            have hxz : ¬ x < z := by
              intro hlt
              exact absurd (lt_of_lt_of_le (lt_of_lt_of_le hlt (not_lt.mp hyz))
                (not_lt.mp hxy)) (lt_irrefl x)
            rw [if_neg hxz]
            by_cases hzx : z < x
            · rw [if_pos hzx]
            · rw [if_neg hzx]
              have hyx : ¬ y < x := fun hlt => hzx (lt_of_le_of_lt (not_lt.mp hyz) hlt)
              have hzy : ¬ z < y := by
                intro hlt
                have hx_eq : x = z := le_antisymm (not_lt.mp hzx) (not_lt.mp hxz)
                apply hxy
                rw [hx_eq]
                exact hlt
              rw [if_neg hyx] at hab
              rw [if_neg hzy] at hbc
              exact ih t u hab hbc

/-!
## Shared lemmas: the Forge and NeoForge node filters
-/

theorem hyphen_mem_of_prefixed {mc fv : Str}
    (h : (mc ++ ['-']).isPrefixOf fv = true) : '-' ∈ fv := by
  have hp : (mc ++ ['-']) <+: fv := List.isPrefixOf_iff_prefix.mp h
  exact hp.sublist.mem (by simp)

theorem splitOnce_length {sep : Char} {s : Str} (h : sep ∈ s) :
    (splitOnce sep s).length = 2 := by
  simp [splitOnce, h]

theorem map_filterMap_eq {α β γ : Type} (f : α → Option β) (g : β → γ)
    (h : α → Option γ) (hfg : ∀ a, (f a).map g = h a) (l : List α) :
    (l.filterMap f).map g = l.filterMap h := by
  induction l with
  | nil => rfl
  | cons a t ih =>
    rw [List.filterMap_cons, List.filterMap_cons, ← hfg a]
    cases hfa : f a with
    | none => simpa using ih
    | some b => simp [ih]

theorem forgeFromNode_map (mc : Str) (t : Option Str) :
    (forgeFromNode mc t).map (·.full_version) =
      t.bind (fun fv =>
        if fv ≠ [] ∧ (mc ++ ['-']).isPrefixOf fv then some fv else none) := by
  cases t with
  | none => rfl
  | some fv =>
    by_cases h : fv ≠ [] ∧ (mc ++ ['-']).isPrefixOf fv
    · have hl : (splitOnce '-' fv).length = 2 :=
        splitOnce_length (hyphen_mem_of_prefixed h.2)
      simp only [forgeFromNode]
      rw [if_pos h, if_pos hl]
      simp [h]
      exact List.isPrefixOf_iff_prefix.mp h.2
    · simp only [forgeFromNode]
      rw [if_neg h]
      have h2 : ¬(¬fv = [] ∧ mc ++ ['-'] <+: fv) := by
        simpa [List.isPrefixOf_iff_prefix] using h
      simp [h2]

theorem forge_map_full (mc : Str) (nodes : List (Option Str)) :
    ((nodes.filterMap (forgeFromNode mc)).map (·.full_version)) =
      forgeMatchingTexts mc nodes :=
  map_filterMap_eq _ _ _ (forgeFromNode_map mc) nodes

theorem neoforgeFromNode_map (p1 : Str) (t : Option Str) :
    (neoforgeFromNode p1 t).map (·.full_version) =
      t.bind (fun fv =>
        if fv ≠ [] ∧ (p1 ++ ['.']).isPrefixOf fv then some fv else none) := by
  cases t with
  | none => rfl
  | some fv =>
    by_cases h : fv ≠ [] ∧ (p1 ++ ['.']).isPrefixOf fv
    · simp only [neoforgeFromNode]
      rw [if_pos h]
      simp [h]
      exact List.isPrefixOf_iff_prefix.mp h.2
    · simp only [neoforgeFromNode]
      rw [if_neg h]
      have h2 : ¬(¬fv = [] ∧ p1 ++ ['.'] <+: fv) := by
        simpa [List.isPrefixOf_iff_prefix] using h
      simp [h2]

theorem neo_map_full (p1 : Str) (nodes : List (Option Str)) :
    ((nodes.filterMap (neoforgeFromNode p1)).map (·.full_version)) =
      neoMatchingTexts p1 nodes :=
  map_filterMap_eq _ _ _ (neoforgeFromNode_map p1) nodes

theorem neo_mc_field {p1 : Str} {t : Option Str} {e : NeoForgeVersion}
    (h : neoforgeFromNode p1 t = some e) :
    e.mc_version = '1' :: '.' :: (splitChar '.' e.full_version).headD [] := by
  cases t with
  | none => simp [neoforgeFromNode] at h
  | some fv =>
    by_cases hc : fv ≠ [] ∧ (p1 ++ ['.']).isPrefixOf fv
    · rw [neoforgeFromNode, if_pos hc] at h
      cases h
      rfl
    · rw [neoforgeFromNode, if_neg hc] at h
      cases h

/-!
## Claim theorems

Each claim of the specification is settled by one theorem below (plus a
closed witness when the theorem carries hypotheses).
-/

/-- **C2.** For every server type and every mod-loader version string (and
in fact for any base version free of `-`, as all published base versions
are), inferring the release channel from the directory name generated at
install time returns the channel used at install time:
`_infer_server_type (_get_server_dir_name stype mc mod) = stype`; vanilla
names carry no channel infix, non-vanilla names are
`<base>-<channel>-<suffix>`, and the NeoForge name is not mistaken for
Forge even though `"forge"` is a substring of `"neoforge"`. -/
theorem claim_C2_channel_roundtrip (stype : ServerType) (mc_version : Str)
    (mod_version : Option Str) (hmc : '-' ∉ mc_version) :
    infer_server_type (get_server_dir_name stype mc_version mod_version) = stype := by
  have hA := noChar_lowerStr hmc
  have hB := noChar_lowerStr (noChar_sanitized mod_version)
  have hforge : '-' ∉ strOf "forge" := by decide
  have hfabric : '-' ∉ strOf "fabric" := by decide
  have hneoforge : '-' ∉ strOf "neoforge" := by decide
  cases stype with
  | VANILLA =>
    show infer_server_type mc_version = ServerType.VANILLA
    unfold infer_server_type
    rw [forge_pat, fabric_pat, neoforge_pat]
    rw [containsSub_sep_of_noChar hA, containsSub_sep_of_noChar hA,
      containsSub_sep_of_noChar hA]
    simp
  | FORGE =>
    show infer_server_type
        (mc_version ++ '-' :: strOf "forge" ++
          '-' :: pyShowOpt (sanitizedModVersion mod_version)) = ServerType.FORGE
    unfold infer_server_type
    rw [forge_pat, lowerStr_name]
    rw [show lowerStr (strOf "forge") = strOf "forge" from by decide]
    rw [containsSub_sep_name hforge hA hforge hB]
    simp
  | FABRIC =>
    show infer_server_type
        (mc_version ++ '-' :: strOf "fabric" ++
          '-' :: pyShowOpt (sanitizedModVersion mod_version)) = ServerType.FABRIC
    unfold infer_server_type
    rw [forge_pat, fabric_pat, lowerStr_name]
    rw [show lowerStr (strOf "fabric") = strOf "fabric" from by decide]
    rw [containsSub_sep_name hforge hA hfabric hB,
      containsSub_sep_name hfabric hA hfabric hB]
    simp
    decide
  | NEOFORGE =>
    show infer_server_type
        (mc_version ++ '-' :: strOf "neoforge" ++
          '-' :: pyShowOpt (sanitizedModVersion mod_version)) = ServerType.NEOFORGE
    unfold infer_server_type
    rw [forge_pat, fabric_pat, neoforge_pat, lowerStr_name]
    rw [show lowerStr (strOf "neoforge") = strOf "neoforge" from by decide]
    rw [containsSub_sep_name hforge hA hneoforge hB,
      containsSub_sep_name hfabric hA hneoforge hB,
      containsSub_sep_name hneoforge hA hneoforge hB]
    simp
    decide

/-- Witness for C2 at the NeoForge corner named by the claim. -/
theorem claim_C2_witness :
    ('-' ∉ strOf "1.20.4")
    ∧ infer_server_type
        (get_server_dir_name ServerType.NEOFORGE (strOf "1.20.4")
          (some (strOf "20.4.237"))) = ServerType.NEOFORGE :=
  ⟨by decide,
    claim_C2_channel_roundtrip ServerType.NEOFORGE (strOf "1.20.4")
      (some (strOf "20.4.237")) (by decide)⟩

/-- **C10.** Base-version round trip at the install/resume boundary: when
the base version contains no `-`, the segment before the first `-` of the
generated directory name is exactly the base version used at install time:
`_infer_mc_version (_get_server_dir_name stype mc mod) = mc`. -/
theorem claim_C10_mc_version_roundtrip (stype : ServerType) (mc_version : Str)
    (mod_version : Option Str) (hmc : '-' ∉ mc_version) :
    infer_mc_version (get_server_dir_name stype mc_version mod_version) = mc_version := by
  cases stype with
  | VANILLA =>
    show infer_mc_version mc_version = mc_version
    unfold infer_mc_version
    rw [splitChar_of_not_mem hmc]
    rfl
  | FORGE =>
    show infer_mc_version
        (mc_version ++ '-' :: ServerType.FORGE.lowerName ++
          '-' :: pyShowOpt (sanitizedModVersion mod_version)) = mc_version
    unfold infer_mc_version
    rw [List.append_assoc, List.cons_append, splitChar_append _ hmc]
    rfl
  | FABRIC =>
    show infer_mc_version
        (mc_version ++ '-' :: ServerType.FABRIC.lowerName ++
          '-' :: pyShowOpt (sanitizedModVersion mod_version)) = mc_version
    unfold infer_mc_version
    rw [List.append_assoc, List.cons_append, splitChar_append _ hmc]
    rfl
  | NEOFORGE =>
    show infer_mc_version
        (mc_version ++ '-' :: ServerType.NEOFORGE.lowerName ++
          '-' :: pyShowOpt (sanitizedModVersion mod_version)) = mc_version
    unfold infer_mc_version
    rw [List.append_assoc, List.cons_append, splitChar_append _ hmc]
    rfl

/-- Witness for C10 at a Forge install. -/
theorem claim_C10_witness :
    ('-' ∉ strOf "1.20.4")
    ∧ infer_mc_version
        (get_server_dir_name ServerType.FORGE (strOf "1.20.4")
          (some (strOf "1.20.4-49.0.30"))) = strOf "1.20.4" :=
  ⟨by decide,
    claim_C10_mc_version_roundtrip ServerType.FORGE (strOf "1.20.4")
      (some (strOf "1.20.4-49.0.30")) (by decide)⟩

/-- **C3.** The major-version derivation of `get_java_details`: when the
first numeric component of the version string is `1` (legacy scheme), the
major version is the second numeric component, defaulting to `8` when
absent; otherwise it is the first numeric component.  In particular
`"1.8.0_291" ↦ 8`, `"17.0.2" ↦ 17`, `"11" ↦ 11`. -/
theorem claim_C3_major_version (v p0 : Str) (rest : List Str)
    (h : digitRuns v = p0 :: rest) :
    (p0 = strOf "1" → rest = [] → major_version_of v = 8)
    ∧ (∀ p1 t, p0 = strOf "1" → rest = p1 :: t → major_version_of v = natOfDigits p1)
    ∧ (p0 ≠ strOf "1" → major_version_of v = natOfDigits p0)
    ∧ major_version_of (strOf "1.8.0_291") = 8
    ∧ major_version_of (strOf "17.0.2") = 17
    ∧ major_version_of (strOf "11") = 11 := by
  refine ⟨?_, ?_, ?_, by decide, by decide, by decide⟩
  · intro h1 h2
    subst h1
    subst h2
    simp [major_version_of, h, majorFromParts]
  · intro p1 t h1 h2
    subst h1
    subst h2
    simp [major_version_of, h, majorFromParts]
  · intro h1
    simp [major_version_of, h, majorFromParts, h1]

/-- Witness for C3 on the modern version scheme `"17.0.2"`. -/
theorem claim_C3_witness :
    digitRuns (strOf "17.0.2") = [strOf "17", strOf "0", strOf "2"]
    ∧ major_version_of (strOf "17.0.2") = natOfDigits (strOf "17") :=
  ⟨by decide,
    (claim_C3_major_version (strOf "17.0.2") (strOf "17") [strOf "0", strOf "2"]
      (by decide)).2.2.1 (by decide)⟩

/-- **C4.** Every catalog listing operation returns the empty list (instead
of propagating an error) when the fetch fails with a transport error, an
HTTP error status — including not-found — or an unparseable payload; and
the Fabric adapter answers HTTP 404 with an empty result and no failure
diagnostic. -/
theorem claim_C4_adapters_degrade_to_empty :
    (∀ (ft : Str) (g : HttpGet (List MinecraftVersion)),
      FetchFailed g → (get_minecraft_versions ft g).1 = [])
    ∧ (∀ (mc : Str) (g : HttpGet (List (Option Str))),
      FetchFailed g → (get_forge_versions mc g).1 = [])
    ∧ (∀ (g : HttpGet (List (Option FabricLoaderVersion))),
      FetchFailed g → (get_fabric_loader_versions g).1 = [])
    ∧ (∀ (mc : Str) (g : HttpGet (List (Option Str))),
      FetchFailed g → (get_neoforge_versions mc g).1 = [])
    ∧ (∀ b : Option (List (Option FabricLoaderVersion)),
      get_fabric_loader_versions (HttpGet.response 404 b) = ([], false)) := by
  refine ⟨?_, ?_, ?_, ?_, ?_⟩
  · intro ft g hg
    cases g with
    | transportError => rfl
    | response status body =>
      rcases hg with h | h
      · simp [get_minecraft_versions, h]
      · subst h
        by_cases hst : 400 ≤ status <;> simp [get_minecraft_versions, hst]
  · intro mc g hg
    cases g with
    | transportError => rfl
    | response status body =>
      rcases hg with h | h
      · simp [get_forge_versions, h]
      · subst h
        by_cases hst : 400 ≤ status <;> simp [get_forge_versions, hst]
  · intro g hg
    cases g with
    | transportError => rfl
    | response status body =>
      rcases hg with h | h
      · by_cases h404 : status = 404 <;> simp [get_fabric_loader_versions, h404, h]
      · subst h
        by_cases h404 : status = 404
        · simp [get_fabric_loader_versions, h404]
        · by_cases hst : 400 ≤ status <;>
            simp [get_fabric_loader_versions, h404, hst]
  · intro mc g hg
    by_cases hlen : (splitChar '.' mc).length < 2
    · simp [get_neoforge_versions, hlen]
    · cases g with
      | transportError => simp [get_neoforge_versions, hlen]
      | response status body =>
        rcases hg with h | h
        · simp [get_neoforge_versions, hlen, h]
        · subst h
          by_cases hst : 400 ≤ status <;> simp [get_neoforge_versions, hlen, hst]
  · intro b
    simp [get_fabric_loader_versions]

/-- Witness for C4: a transport error on the Mojang manifest and a 404 on
the Fabric loader endpoint. -/
theorem claim_C4_witness :
    (get_minecraft_versions (strOf "release") HttpGet.transportError).1 = []
    ∧ get_fabric_loader_versions
        (HttpGet.response 404 (some ([] : List (Option FabricLoaderVersion)))) =
        ([], false) :=
  ⟨claim_C4_adapters_degrade_to_empty.1 (strOf "release") HttpGet.transportError
      trivial,
    claim_C4_adapters_degrade_to_empty.2.2.2.2 (some [])⟩

/-- **C6.** On a successful fetch the Forge adapter returns exactly the
metadata entries whose version text starts with `<mc_version>-`, ordered
descending by the raw lexicographic order of the loader-version substring
(the part after the first `-`), not by numeric precedence: with two
candidate loader versions `9.1` and `10.1`, the adapter lists `9.1` first
even though `10 > 9` numerically. -/
theorem claim_C6_forge_filter_and_lex_sort (mc_version : Str) (status : Nat)
    (nodes : List (Option Str)) (hok : status < 400) :
    ((get_forge_versions mc_version (HttpGet.response status (some nodes))).1.map
        (·.full_version)).Perm (forgeMatchingTexts mc_version nodes)
    ∧ ((get_forge_versions mc_version (HttpGet.response status (some nodes))).1.Pairwise
        fun a b => strLt a.forge_version b.forge_version = false)
    ∧ ((get_forge_versions (strOf "1.2")
        (HttpGet.response 200
          (some [some (strOf "1.2-9.1"), some (strOf "1.2-10.1")]))).1.map
        (·.forge_version) = [strOf "9.1", strOf "10.1"])
    ∧ strLt (strOf "10.1") (strOf "9.1") = true
    ∧ natOfDigits (strOf "10") > natOfDigits (strOf "9") := by
  have hres : (get_forge_versions mc_version (HttpGet.response status (some nodes))).1 =
      sortDescBy (fun a b => strLt a.forge_version b.forge_version)
        (nodes.filterMap (forgeFromNode mc_version)) := by
    simp [get_forge_versions, Nat.not_le.mpr hok]
  refine ⟨?_, ?_, by decide, by decide, by decide⟩
  · rw [hres]
    calc ((sortDescBy _ (nodes.filterMap (forgeFromNode mc_version))).map
            (·.full_version)).Perm
          ((nodes.filterMap (forgeFromNode mc_version)).map (·.full_version)) :=
        (perm_sortDescBy _ _).map _
      _ = forgeMatchingTexts mc_version nodes := forge_map_full mc_version nodes
  · rw [hres]
    exact pairwise_sortDescBy _
      (fun a b => strLt_asymm a.forge_version b.forge_version)
      (fun a b c => strLt_ge_trans a.forge_version b.forge_version c.forge_version) _

/-- Witness for C6 on the misordering example itself. -/
theorem claim_C6_witness :
    (get_forge_versions (strOf "1.2")
        (HttpGet.response 200
          (some [some (strOf "1.2-9.1"), some (strOf "1.2-10.1")]))).1.map
      (·.forge_version) = [strOf "9.1", strOf "10.1"] :=
  (claim_C6_forge_filter_and_lex_sort (strOf "1.2") 200
    [some (strOf "1.2-9.1"), some (strOf "1.2-10.1")] (by decide)).2.2.1

/-- **C7.** The NeoForge adapter matches against a derived numeric series:
with a base version splitting into at least two dot components (so
`1.X[.Y]` has `X` as second component), a successful fetch returns exactly
the entries starting with `X.`, each reconstructing its base version as
`"1." ++` its own first dot component; a base version with fewer than two
dot components yields the empty list. -/
theorem claim_C7_neoforge_derived_series (mc_version p0 p1 : Str)
    (restParts : List Str) (status : Nat) (nodes : List (Option Str))
    (hsplit : splitChar '.' mc_version = p0 :: p1 :: restParts)
    (hok : status < 400) :
    ((get_neoforge_versions mc_version (HttpGet.response status (some nodes))).1.map
        (·.full_version)).Perm (neoMatchingTexts p1 nodes)
    ∧ (∀ e ∈ (get_neoforge_versions mc_version (HttpGet.response status (some nodes))).1,
        e.mc_version = '1' :: '.' :: (splitChar '.' e.full_version).headD [])
    ∧ (∀ (mc2 : Str) (g : HttpGet (List (Option Str))),
        (splitChar '.' mc2).length < 2 → (get_neoforge_versions mc2 g).1 = []) := by
  have hlen : ¬ (splitChar '.' mc_version).length < 2 := by
    rw [hsplit]
    simp
  have hres : (get_neoforge_versions mc_version
        (HttpGet.response status (some nodes))).1 =
      sortDescBy (fun a b => strLt a.full_version b.full_version)
        (nodes.filterMap (neoforgeFromNode p1)) := by
    simp [get_neoforge_versions, hlen, Nat.not_le.mpr hok, hsplit]
    rw [if_neg (by omega : ¬ restParts.length + 1 + 1 < 2)]
  refine ⟨?_, ?_, ?_⟩
  · rw [hres]
    calc ((sortDescBy _ (nodes.filterMap (neoforgeFromNode p1))).map
            (·.full_version)).Perm
          ((nodes.filterMap (neoforgeFromNode p1)).map (·.full_version)) :=
        (perm_sortDescBy _ _).map _
      _ = neoMatchingTexts p1 nodes := neo_map_full p1 nodes
  · intro e he
    rw [hres] at he
    rw [mem_sortDescBy] at he
    obtain ⟨t, -, ht⟩ := List.mem_filterMap.mp he
    exact neo_mc_field ht
  · intro mc2 g hlen2
    simp [get_neoforge_versions, hlen2]

/-- Witness for C7 at base version `"1.21"` with three metadata nodes. -/
theorem claim_C7_witness :
    ((get_neoforge_versions (strOf "1.21")
        (HttpGet.response 200
          (some [some (strOf "21.1.95"), some (strOf "20.4.237"), none]))).1.map
        (·.full_version)).Perm
      (neoMatchingTexts (strOf "21")
        [some (strOf "21.1.95"), some (strOf "20.4.237"), none]) :=
  (claim_C7_neoforge_derived_series (strOf "1.21") (strOf "1") (strOf "21") [] 200
    [some (strOf "21.1.95"), some (strOf "20.4.237"), none]
    (by decide) (by decide)).1

theorem selectJavaMenu_wrote_confirm {insts : List JavaInstallation}
    {choice : Option (Fin insts.length)} {ans : Option Bool}
    (hw : (selectJavaMenu insts choice ans).wrote ≠ none) : ans = some true := by
  by_cases h : insts = []
  · simp [selectJavaMenu, h] at hw
  · cases choice with
    | none => simp [selectJavaMenu, h] at hw
    | some i =>
      cases ans with
      | none => simp [selectJavaMenu, h] at hw
      | some bv =>
        cases bv with
        | false => simp [selectJavaMenu, h] at hw
        | true => rfl

/-- **C9.** The persisted per-server Java configuration: a saved
`java-path.json` whose `javaPath` points at a valid executable is returned
with no operator prompt and no write; and the file is written only when the
operator answers the save prompt with an explicit yes — on every other path
(quit at the menu, `n` or `q` at the save prompt, use of a valid saved
path) nothing is written. -/
theorem claim_C9_saved_java_frame :
    (∀ (p : Str) (validExec : Str → Bool) (insts : List JavaInstallation)
        (choice : Option (Fin insts.length)) (ans : Option Bool),
      validExec p = true →
      select_java_for_version (some (some p)) validExec insts choice ans =
        ⟨some (p ++ strOf "/bin/java"), false, none, false⟩)
    ∧ (∀ (saved : Option (Option Str)) (validExec : Str → Bool)
        (insts : List JavaInstallation) (choice : Option (Fin insts.length))
        (ans : Option Bool),
      (select_java_for_version saved validExec insts choice ans).wrote ≠ none →
      ans = some true)
    ∧ (∀ (saved : Option (Option Str)) (validExec : Str → Bool)
        (insts : List JavaInstallation) (choice : Option (Fin insts.length))
        (ans : Option Bool),
      ans ≠ some true →
      (select_java_for_version saved validExec insts choice ans).wrote = none) := by
  have hmain : ∀ (saved : Option (Option Str)) (validExec : Str → Bool)
      (insts : List JavaInstallation) (choice : Option (Fin insts.length))
      (ans : Option Bool),
      (select_java_for_version saved validExec insts choice ans).wrote ≠ none →
      ans = some true := by
    intro saved validExec insts choice ans hw
    cases saved with
    | none => exact selectJavaMenu_wrote_confirm hw
    | some o =>
      cases o with
      | none => exact selectJavaMenu_wrote_confirm hw
      | some p =>
        by_cases hv : validExec p
        · rw [select_java_for_version, if_pos hv] at hw
          simp at hw
        · rw [select_java_for_version, if_neg hv] at hw
          exact selectJavaMenu_wrote_confirm hw
  refine ⟨?_, hmain, ?_⟩
  · intro p validExec insts choice ans hv
    rw [select_java_for_version, if_pos hv]
  · intro saved validExec insts choice ans ha
    by_cases hw : (select_java_for_version saved validExec insts choice ans).wrote = none
    · exact hw
    · exact absurd (hmain saved validExec insts choice ans hw) ha

/-- Witness for C9: a valid saved path short-circuits the operation. -/
theorem claim_C9_witness :
    select_java_for_version (some (some (strOf "/usr/lib/jvm/temurin-17")))
        (fun _ => true) [] none none =
      ⟨some (strOf "/usr/lib/jvm/temurin-17" ++ strOf "/bin/java"), false, none, false⟩ :=
  claim_C9_saved_java_frame.1 (strOf "/usr/lib/jvm/temurin-17") (fun _ => true)
    [] none none rfl

/-- **C5.** When the operator signals end-of-input or interrupt while the
process is running, the input loop attempts exactly one `stop` command
write (which lands as the final write when the pipe is intact, and is
swallowed when the pipe is broken), then breaks; the post-loop phase waits
for natural termination with the 60-second grace timeout, and on timeout
the raised `subprocess.TimeoutExpired` is caught by the
`subprocess.SubprocessError` clause, which kills the still-running process
— so the run always ends with the process terminated. -/
theorem claim_C5_shutdown_protocol (pre : List LoopEvent) (broken : Bool)
    (rest : List LoopEvent)
    (hpre : ∀ e ∈ pre, ∃ s, e = LoopEvent.opLine s) :
    (inputLoop (pre ++ LoopEvent.opInterrupt broken :: rest)).exit =
      LoopExit.interruptBreak
    ∧ (inputLoop (pre ++ LoopEvent.opInterrupt broken :: rest)).stopAttempts = 1
    ∧ (broken = false →
        ∃ pfx, (inputLoop (pre ++ LoopEvent.opInterrupt broken :: rest)).writes =
          pfx ++ [strOf "stop\n"])
    ∧ (∀ w : WaitResult, (waitPhase w).terminated) := by
  have hterm : ∀ w : WaitResult, (waitPhase w).terminated := by
    intro w
    cases w with
    | exited c => trivial
    | timedOut => decide
  induction pre with
  | nil =>
    refine ⟨rfl, rfl, ?_, hterm⟩
    intro hb
    subst hb
    exact ⟨[], rfl⟩
  | cons e pre ih =>
    obtain ⟨s, rfl⟩ := hpre e (List.mem_cons_self e pre)
    have ih2 := ih (fun e2 he2 => hpre e2 (List.mem_cons_of_mem _ he2))
    rw [List.cons_append]
    by_cases hs : stripStr s ≠ []
    · rw [inputLoop, if_pos hs]
      refine ⟨ih2.1, ih2.2.1, ?_, hterm⟩
      intro hb
      obtain ⟨pfx, hpfx⟩ := ih2.2.2.1 hb
      exact ⟨(s ++ strOf "\n") :: pfx, by rw [hpfx]; rfl⟩
    · rw [inputLoop, if_neg hs]
      exact ih2

/-- Witness for C5: one ordinary line, then the interrupt on an intact
pipe. -/
theorem claim_C5_witness :
    (inputLoop [LoopEvent.opLine (strOf "list"), LoopEvent.opInterrupt false]).exit =
      LoopExit.interruptBreak
    ∧ (inputLoop [LoopEvent.opLine (strOf "list"),
        LoopEvent.opInterrupt false]).stopAttempts = 1 := by
  have h := claim_C5_shutdown_protocol [LoopEvent.opLine (strOf "list")] false []
    (by intro e he
        rw [List.mem_singleton] at he
        exact ⟨strOf "list", he⟩)
  exact ⟨h.1, h.2.1⟩

/-!
## Invariant of the `find_java_installations` fold

`processed` is the prefix of probe results consumed so far; the state `st`
is `(processed_homes, found_installations.values())`.
-/

/-- Invariant relating the loop state of `find_java_installations` to the
already-processed probe results. -/
structure FindInv (processed : List JavaInstallation)
    (st : List Str × List JavaInstallation) : Prop where
  homes_sub : ∀ h ∈ st.1, ∃ e ∈ processed, e.java_home = h
  homes_mem : ∀ e ∈ processed, e.java_home ∈ st.1
  found_sub : ∀ e ∈ st.2, e ∈ processed
  alias_nodup : (st.2.map (·.display_alias)).Nodup
  rep : ∀ e ∈ processed, ∃ c ∈ st.2,
    c.display_alias = e.display_alias ∧ c.path_depth ≤ e.path_depth

theorem findInv_init : FindInv [] ([], []) :=
  ⟨by simp, by simp, by simp, by simp, by simp⟩

theorem findStep_inv {processed : List JavaInstallation}
    {st : List Str × List JavaInstallation} {d : JavaInstallation}
    (hInv : FindInv processed st)
    (hd : ∀ y ∈ processed, d.java_home = y.java_home → d = y) :
    FindInv (processed ++ [d]) (findStep st d) := by
  unfold findStep
  by_cases hh : d.java_home ∈ st.1
  · rw [if_pos hh]
    refine ⟨?_, ?_, ?_, hInv.alias_nodup, ?_⟩
    · intro h hmem
      obtain ⟨e, he, heq⟩ := hInv.homes_sub h hmem
      exact ⟨e, List.mem_append_left _ he, heq⟩
    · intro e hmem
      rcases List.mem_append.mp hmem with h | h
      · exact hInv.homes_mem e h
      · rw [List.mem_singleton] at h
        subst h
        exact hh
    · intro e hmem
      exact List.mem_append_left _ (hInv.found_sub e hmem)
    · intro e hmem
      rcases List.mem_append.mp hmem with h | h
      · obtain ⟨c, hc, hca, hcd⟩ := hInv.rep e h
        exact ⟨c, hc, hca, hcd⟩
      · rw [List.mem_singleton] at h
        subst h
        obtain ⟨y, hy, hyh⟩ := hInv.homes_sub e.java_home hh
        have heq := hd y hy hyh.symm
        obtain ⟨c, hc, hca, hcd⟩ := hInv.rep y hy
        rw [← heq] at hca hcd
        exact ⟨c, hc, hca, hcd⟩
  · rw [if_neg hh]
    cases hfind : st.2.find? (fun e => e.display_alias == d.display_alias) with
    | none =>
      have hno : ∀ x ∈ st.2, x.display_alias ≠ d.display_alias := by
        intro x hx
        have := List.find?_eq_none.mp hfind x hx
        simpa using this
      refine ⟨?_, ?_, ?_, ?_, ?_⟩
      · intro h hmem
        rcases List.mem_cons.mp hmem with h1 | h1
        · exact ⟨d, List.mem_append_right _ (List.mem_singleton_self d), h1.symm⟩
        · obtain ⟨e, he, heq⟩ := hInv.homes_sub h h1
          exact ⟨e, List.mem_append_left _ he, heq⟩
      · intro e hmem
        rcases List.mem_append.mp hmem with h | h
        · exact List.mem_cons_of_mem _ (hInv.homes_mem e h)
        · rw [List.mem_singleton] at h
          subst h
          exact List.mem_cons_self _ _
      · intro e hmem
        rcases List.mem_append.mp hmem with h | h
        · exact List.mem_append_left _ (hInv.found_sub e h)
        · exact List.mem_append_right _ h
      · rw [List.map_append]
        rw [List.nodup_append]
        refine ⟨hInv.alias_nodup, by simp, ?_⟩
        intro a ha hb
        simp only [List.map_cons, List.map_nil, List.mem_singleton] at hb
        obtain ⟨x, hx, hxa⟩ := List.mem_map.mp ha
        exact hno x hx (hxa.trans hb)
      · intro e hmem
        rcases List.mem_append.mp hmem with h | h
        · obtain ⟨c, hc, hca, hcd⟩ := hInv.rep e h
          exact ⟨c, List.mem_append_left _ hc, hca, hcd⟩
        · rw [List.mem_singleton] at h
          subst h
          exact ⟨e, List.mem_append_right _ (List.mem_singleton_self e), rfl,
            le_refl _⟩
    | some e0 =>
      have he0_mem : e0 ∈ st.2 := List.mem_of_find?_eq_some hfind
      have he0_alias : e0.display_alias = d.display_alias := by
        have := List.find?_some hfind
        simpa using this
      dsimp only
      by_cases hdep : d.path_depth < e0.path_depth
      · rw [if_pos hdep]
        have hmap_alias : ((st.2.map
            (fun x => if x.display_alias == d.display_alias then d else x)).map
              (·.display_alias)) = st.2.map (·.display_alias) := by
          rw [List.map_map]
          apply List.map_congr_left
          intro x hx
          by_cases hxa : x.display_alias == d.display_alias
          · simp only [Function.comp_apply, if_pos hxa]
            have : x.display_alias = d.display_alias := by simpa using hxa
            exact this.symm
          · simp only [Function.comp_apply, if_neg hxa]
        refine ⟨?_, ?_, ?_, ?_, ?_⟩
        · intro h hmem
          rcases List.mem_cons.mp hmem with h1 | h1
          · exact ⟨d, List.mem_append_right _ (List.mem_singleton_self d), h1.symm⟩
          · obtain ⟨e, he, heq⟩ := hInv.homes_sub h h1
            exact ⟨e, List.mem_append_left _ he, heq⟩
        · intro e hmem
          rcases List.mem_append.mp hmem with h | h
          · exact List.mem_cons_of_mem _ (hInv.homes_mem e h)
          · rw [List.mem_singleton] at h
            subst h
            exact List.mem_cons_self _ _
        · intro e hmem
          obtain ⟨x, hx, hxe⟩ := List.mem_map.mp hmem
          by_cases hxa : x.display_alias == d.display_alias
          · rw [if_pos hxa] at hxe
            subst hxe
            exact List.mem_append_right _ (List.mem_singleton_self _)
          · rw [if_neg hxa] at hxe
            subst hxe
            exact List.mem_append_left _ (hInv.found_sub x hx)
        · rw [hmap_alias]
          exact hInv.alias_nodup
        · intro e hmem
          rcases List.mem_append.mp hmem with h | h
          · obtain ⟨c, hc, hca, hcd⟩ := hInv.rep e h
            by_cases hca2 : c.display_alias == d.display_alias
            · have hceq : c = e0 :=
                List.inj_on_of_nodup_map hInv.alias_nodup hc he0_mem
                  (by rw [he0_alias]; simpa using hca2)
              have h3 : c.display_alias = d.display_alias := by simpa using hca2
              refine ⟨d, ?_, ?_, ?_⟩
              · exact List.mem_map.mpr ⟨c, hc, by rw [if_pos hca2]⟩
              · exact h3.symm.trans hca
              · have h4 : c.path_depth ≤ e.path_depth := hcd
                rw [hceq] at h4
                omega
            · refine ⟨c, ?_, hca, hcd⟩
              exact List.mem_map.mpr ⟨c, hc, by rw [if_neg hca2]⟩
          · rw [List.mem_singleton] at h
            refine ⟨d, ?_, by rw [h], by rw [h]⟩
            exact List.mem_map.mpr ⟨e0, he0_mem, by rw [if_pos (by simp [he0_alias])]⟩
      · rw [if_neg hdep]
        refine ⟨?_, ?_, ?_, hInv.alias_nodup, ?_⟩
        · intro h hmem
          rcases List.mem_cons.mp hmem with h1 | h1
          · exact ⟨d, List.mem_append_right _ (List.mem_singleton_self d), h1.symm⟩
          · obtain ⟨e, he, heq⟩ := hInv.homes_sub h h1
            exact ⟨e, List.mem_append_left _ he, heq⟩
        · intro e hmem
          rcases List.mem_append.mp hmem with h | h
          · exact List.mem_cons_of_mem _ (hInv.homes_mem e h)
          · rw [List.mem_singleton] at h
            subst h
            exact List.mem_cons_self _ _
        · intro e hmem
          exact List.mem_append_left _ (hInv.found_sub e hmem)
        · intro e hmem
          rcases List.mem_append.mp hmem with h | h
          · obtain ⟨c, hc, hca, hcd⟩ := hInv.rep e h
            exact ⟨c, hc, hca, hcd⟩
          · rw [List.mem_singleton] at h
            subst h
            exact ⟨e0, he0_mem, he0_alias, Nat.le_of_not_lt hdep⟩

theorem findFold_inv :
    ∀ (l2 processed : List JavaInstallation) (st : List Str × List JavaInstallation),
    FindInv processed st →
    (∀ x ∈ processed ++ l2, ∀ y ∈ processed ++ l2,
      x.java_home = y.java_home → x = y) →
    FindInv (processed ++ l2) (l2.foldl findStep st) := by
  intro l2
  induction l2 with
  | nil =>
    intro processed st h hH
    simpa using h
  | cons d t ih =>
    intro processed st h hH
    have hstep := findStep_inv h (fun y hy heq =>
      hH d (by simp) y (List.mem_append_left _ hy) heq)
    have hassoc : processed ++ d :: t = (processed ++ [d]) ++ t := by simp
    rw [List.foldl_cons, hassoc]
    rw [hassoc] at hH
    exact ih (processed ++ [d]) (findStep st d) hstep hH

/-- **C1.** For any two probe results sharing an aliasKey
(`display_alias`), the discovery result keeps exactly the one with the
smaller `path_depth`, after dedup by resolved install root.  The
hypothesis `hhome` reflects that `get_java_details` derives every field
from one resolved executable, so two candidates with the same resolved
`java_home` carry the same record (in particular
`path_depth = |java_home| + 2` componentwise).  The conjuncts: the
deeper of the two is dropped; an installation with that alias and depth
at most the shallower one's is retained; and the result only contains
probe results. -/
theorem claim_C1_alias_min_depth (cands : List JavaInstallation)
    (hhome : ∀ x ∈ cands, ∀ y ∈ cands, x.java_home = y.java_home → x = y)
    (a b : JavaInstallation) (ha : a ∈ cands) (_hb : b ∈ cands)
    (halias : a.display_alias = b.display_alias)
    (hdepth : a.path_depth < b.path_depth) :
    b ∉ find_java_installations cands
    ∧ (∃ c ∈ find_java_installations cands,
        c.display_alias = a.display_alias ∧ c.path_depth ≤ a.path_depth)
    ∧ (∀ c ∈ find_java_installations cands, c ∈ cands) := by
  have hInv : FindInv cands (cands.foldl findStep ([], [])) := by
    have h := findFold_inv cands [] ([], []) findInv_init (by simpa using hhome)
    simpa using h
  refine ⟨?_, ?_, ?_⟩
  · intro hbmem
    rw [find_java_installations, mem_sortDescBy] at hbmem
    obtain ⟨c, hc_mem, hc_alias, hc_dep⟩ := hInv.rep a ha
    have hcb : c = b :=
      List.inj_on_of_nodup_map hInv.alias_nodup hc_mem hbmem
        (by rw [hc_alias, halias])
    rw [hcb] at hc_dep
    omega
  · obtain ⟨c, hc_mem, hc_alias, hc_dep⟩ := hInv.rep a ha
    rw [find_java_installations]
    exact ⟨c, (mem_sortDescBy _ _ _).mpr hc_mem, hc_alias, hc_dep⟩
  · intro c hc
    rw [find_java_installations, mem_sortDescBy] at hc
    exact hInv.found_sub c hc

/-- A shallow Zulu 17 installation (resolved under a four-component
executable path). -/
def javaShallow : JavaInstallation :=
  ⟨strOf "/opt/zulu17", strOf "JDK", strOf "17.0.2", strOf "Zulu", 17,
    strOf "zulu17", 4⟩

/-- A deeper Zulu 17 installation with the same alias. -/
def javaDeep : JavaInstallation :=
  ⟨strOf "/usr/lib/jvm/zulu17", strOf "JDK", strOf "17.0.1", strOf "Zulu", 17,
    strOf "zulu17", 6⟩

/-- Witness for C1: of two probed Zulu 17 installations the deeper one is
dropped and the shallower one retained. -/
theorem claim_C1_witness :
    javaDeep ∉ find_java_installations [javaDeep, javaShallow]
    ∧ ∃ c ∈ find_java_installations [javaDeep, javaShallow],
        c.display_alias = javaShallow.display_alias
          ∧ c.path_depth ≤ javaShallow.path_depth := by
  have h := claim_C1_alias_min_depth [javaDeep, javaShallow] (by decide)
    javaShallow javaDeep (by decide) (by decide) (by decide) (by decide)
  exact ⟨h.1, h.2.1⟩

/-!
## C8: the output reader is a daemon thread and is never joined

`_start_server` sets `output_thread.daemon = True` and never joins the
thread, and `run()` ends in `sys.exit(0)`; interpreter shutdown stops a
daemon thread abruptly.  In the transition system this is the `mainExit`
step, which is enabled no matter how much buffered output remains, so a
completed run can drop produced lines — refuting the specification's
no-drop guarantee.  What does hold: while the foreground flow is alive the
reader forwards the produced lines in order and only stops at a closed,
drained stream.
-/

/-- The state reached by producing one line, closing the stream, and
letting the foreground flow exit before the reader ever runs. -/
def supDropSt : SupSt := ⟨[strOf "Done!"], [strOf "Done!"], [], true, false, false⟩

theorem supDropSt_reached : SupReaches supInit supDropSt := by
  have s1 : SupStep supInit ⟨[strOf "Done!"], [strOf "Done!"], [], false, true, true⟩ := by
    have h := SupStep.emit supInit (strOf "Done!") rfl
    simpa [supInit] using h
  have s2 : SupStep ⟨[strOf "Done!"], [strOf "Done!"], [], false, true, true⟩
      ⟨[strOf "Done!"], [strOf "Done!"], [], true, true, true⟩ := by
    have h := SupStep.close ⟨[strOf "Done!"], [strOf "Done!"], [], false, true, true⟩ rfl
    simpa using h
  have s3 : SupStep ⟨[strOf "Done!"], [strOf "Done!"], [], true, true, true⟩ supDropSt := by
    have h := SupStep.mainExit ⟨[strOf "Done!"], [strOf "Done!"], [], true, true, true⟩ rfl
    simpa [supDropSt] using h
  exact Relation.ReflTransGen.head s1 (Relation.ReflTransGen.head s2
    (Relation.ReflTransGen.single s3))

theorem supDropSt_terminal : SupTerminal supDropSt := by
  intro t hstep
  cases hstep with
  | emit l hOpen => simp [supDropSt] at hOpen
  | close hOpen => simp [supDropSt] at hOpen
  | forward l rest hAlive hBuf => simp [supDropSt] at hAlive
  | readerEof hAlive hBuf hClosed => simp [supDropSt] at hAlive
  | mainExit hAlive => simp [supDropSt] at hAlive

/-- **C8, counterexample.** The no-drop guarantee is false for the code:
the reader thread is a daemon and is never joined, so the run in which the
process emits one line, the stream closes, and the foreground flow exits
before the reader is scheduled is a completed run that forwards nothing. -/
theorem claim_C8_counterexample : ¬ NoOutputDropped := by
  intro h
  have heq := h supDropSt supDropSt_reached supDropSt_terminal
  simp [supDropSt] at heq

/-- **C8, amended.** In every reachable state the forwarded lines followed
by the still-buffered lines are exactly the produced lines in order (no
reordering, no duplication, no loss while the run is live), and the reader
stops only once the stream is closed and drained — or because the
foreground flow has exited, since the never-joined daemon reader is stopped
by interpreter shutdown; output still buffered at that moment is dropped. -/
theorem claim_C8_reader_drains_while_main_alive (s : SupSt)
    (hreach : SupReaches supInit s) :
    s.forwarded ++ s.buffered = s.produced
    ∧ (s.readerAlive = false →
        s.mainAlive = false ∨ (s.buffered = [] ∧ s.streamClosed = true)) := by
  induction hreach with
  | refl => exact ⟨rfl, by intro h; simp [supInit] at h⟩
  | @tail b c hab hbc ih =>
    obtain ⟨ih1, ih2⟩ := ih
    cases hbc with
    | emit l hOpen =>
      refine ⟨?_, ?_⟩
      · show b.forwarded ++ (b.buffered ++ [l]) = b.produced ++ [l]
        rw [← ih1, List.append_assoc]
      · intro hra
        have hra2 : b.readerAlive = false := hra
        rcases ih2 hra2 with h | h
        · exact Or.inl h
        · rw [h.2] at hOpen
          cases hOpen
    | close hOpen =>
      refine ⟨ih1, ?_⟩
      intro hra
      rcases ih2 hra with h | h
      · exact Or.inl h
      · exact Or.inr ⟨h.1, rfl⟩
    | forward l rest hAlive hBuf =>
      refine ⟨?_, ?_⟩
      · show (b.forwarded ++ [l]) ++ rest = b.produced
        rw [List.append_assoc, List.singleton_append, ← hBuf, ih1]
      · intro hra
        have hcontra : b.readerAlive = false := hra
        rw [hAlive] at hcontra
        cases hcontra
    | readerEof hAlive hBuf hClosed =>
      exact ⟨ih1, fun _ => Or.inr ⟨hBuf, hClosed⟩⟩
    | mainExit hAlive =>
      exact ⟨ih1, fun _ => Or.inl rfl⟩

/-- Witness for C8 (amended) at the initial state. -/
theorem claim_C8_witness :
    supInit.forwarded ++ supInit.buffered = supInit.produced
    ∧ (supInit.readerAlive = false →
        supInit.mainAlive = false
          ∨ (supInit.buffered = [] ∧ supInit.streamClosed = true)) :=
  claim_C8_reader_drains_while_main_alive supInit Relation.ReflTransGen.refl

end MCSM
